import Mathlib

/-!
Verification development for the PostgreSQL release-notes scraper
(`scraper/execute.ts` of neondatabase/pgversionreport).

The pure text-processing core of the scraper is embedded shallowly:
JavaScript strings are Lean `String`s (manipulated through their
character lists), regular-expression scans are translated into explicit
character-list scanners that mirror the leftmost-match semantics of the
JavaScript regex engine, and the file and network side effects (reading
the cache directory, fetching CVE data, writing JSON files) are made
explicit inputs and outputs of the corresponding functions.
-/

/-- Lowercases every character of a list; models JavaScript
`String.prototype.toLowerCase` on the ASCII text the scraper handles. -/
def toLowerL (l : List Char) : List Char := l.map Char.toLower

/-- Boolean substring test on character lists; models JavaScript
`String.prototype.includes`. -/
def isSubstr (needle : List Char) : List Char → Bool
  | [] => needle.isEmpty
  | c :: t => needle.isPrefixOf (c :: t) || isSubstr needle t

/-- Models JavaScript `String.prototype.endsWith`. -/
def jsEndsWith (s sfx : String) : Bool := sfx.toList.isSuffixOf s.toList

/-- JavaScript `split(", ")` on a character list: cut at every
non-overlapping occurrence of the two-character separator, scanning
left to right; the result always has at least one (possibly empty)
piece, as in JavaScript. -/
def splitCS : List Char → List (List Char)
  | ',' :: ' ' :: rest => [] :: splitCS rest
  | c :: rest =>
    match splitCS rest with
    | [] => [[c]]
    | h :: t => (c :: h) :: t
  | [] => [[]]

/-- JavaScript whitespace trim (`String.prototype.trim`) on a character
list: drop whitespace from both ends. -/
def trimL (l : List Char) : List Char :=
  ((l.dropWhile Char.isWhitespace).reverse.dropWhile Char.isWhitespace).reverse

/-- The four buckets of `categorizeChanges` (execute.ts:163-274). -/
inductive Cat where
  | security
  | performance
  | bugs
  | features
deriving DecidableEq, Repr

/-- `keywords.security` (execute.ts:172). -/
def securityKeywords : List String := ["cve"]

/-- `keywords.performance` (execute.ts:173-185). -/
def performanceKeywords : List String :=
  ["performance", "speed", "faster", "optimization", "improve", "reduce",
   "enhance", "boost", "accelerate", "better", "efficient"]

/-- `keywords.bugs` (execute.ts:186-199). -/
def bugsKeywords : List String :=
  ["fix", "issue", "crash", "overflow", "error", "bug", "problem", "flaw",
   "mistake", "patch", "repair", "resolve"]

/-- `keywords.features` (execute.ts:200-247); the duplicate
`"new feature"` entry and the capitalised `"new API"` entry are kept
exactly as in the source. -/
def featuresKeywords : List String :=
  ["new feature", "added", "introduced", "now supports", "new option",
   "new parameter", "new setting", "new command", "new function",
   "new syntax", "new capability", "new behavior", "new flag",
   "new directive", "new method", "new property", "new API",
   "new interface", "new class", "new module", "new package",
   "new library", "new framework", "new tool", "new utility",
   "new plugin", "new extension", "new integration", "new support",
   "new compatibility", "new standard", "new protocol", "new format",
   "new language", "new technology", "new system", "new service",
   "new application", "new feature", "new enhancement",
   "new improvement", "new addition", "new change", "new update",
   "new upgrade", "new version"]

/-- The `keywords` object of `categorizeChanges` in the insertion order
of its literal: security, performance, bugs, features — the order
`Object.entries` iterates it in (execute.ts:171-248). -/
def keywordTable : List (Cat × List String) :=
  [(Cat.security, securityKeywords),
   (Cat.performance, performanceKeywords),
   (Cat.bugs, bugsKeywords),
   (Cat.features, featuresKeywords)]

/-- `words.some((word) => lowerChange.includes(word))` (execute.ts:258). -/
def hitsAny (words : List String) (lc : List Char) : Bool :=
  words.any fun w => isSubstr w.toList lc

/-- The `for (const [category, words] of Object.entries(keywords))` loop
body of `categorizeChanges` (execute.ts:254-266): the gate
`!is_major && (category == "features" || category == "performance")`
breaks out of the loop (result `none`, the item will fall to the
fallback bucket), a keyword hit selects the category, otherwise the
next entry is tried. -/
def findCat (isMajor : Bool) (lc : List Char) :
    List (Cat × List String) → Option Cat
  | [] => none
  | (cat, words) :: rest =>
    if !isMajor && (cat == Cat.features || cat == Cat.performance) then none
    else if hitsAny words lc then some cat
    else findCat isMajor lc rest

/-- Category assigned to one change item by `categorizeChanges`:
the loop over `keywordTable`, with the `if (!categorized)` fallback into
`bugs` (execute.ts:250-271). -/
def classifyOne (isMajor : Bool) (change : String) : Cat :=
  (findCat isMajor (toLowerL change.toList) keywordTable).getD Cat.bugs

/-- The `categories` record built by `categorizeChanges`
(execute.ts:164-169). -/
structure Categories where
  performance : List String
  security : List String
  features : List String
  bugs : List String
deriving DecidableEq, Repr

/-- Appends a classified change to its bucket (the
`categories[category].push(change)` and `categories.bugs.push(change)`
statements of execute.ts:262/269). -/
def addToCat (c : Cat) (change : String) (k : Categories) : Categories :=
  match c with
  | Cat.security => { k with security := change :: k.security }
  | Cat.performance => { k with performance := change :: k.performance }
  | Cat.bugs => { k with bugs := change :: k.bugs }
  | Cat.features => { k with features := change :: k.features }

/-- `categorizeChanges(changes, is_major)` (execute.ts:163-274).
The source pushes each item at the end of its bucket while walking the
list left to right; recursing on the tail and consing the head's item
onto the front of its bucket produces the same four lists. -/
def categorizeChanges (changes : List String) (isMajor : Bool) : Categories :=
  match changes with
  | [] => ⟨[], [], [], []⟩
  | change :: rest =>
    addToCat (classifyOne isMajor change) change (categorizeChanges rest isMajor)

/-- One element of the `releaseData` array built by `parseReleaseNotes`
(execute.ts:152-156). -/
structure Release where
  version : String
  releaseDate : String
  changes : List String
deriving DecidableEq, Repr

/-- One element of the `processedData` array built by
`processReleaseNotes` (execute.ts:280-290). -/
structure ProcessedRelease where
  version : String
  releaseDate : String
  categories : Categories
deriving DecidableEq, Repr

/-- The `releaseData.map((release) => ...)` body of
`processReleaseNotes` (execute.ts:280-290): the major-release flag is
`release.version.endsWith(".0")`. -/
def processOne (r : Release) : ProcessedRelease :=
  ⟨r.version, r.releaseDate, categorizeChanges r.changes (jsEndsWith r.version ".0")⟩

/-- The pure content of `processReleaseNotes` (execute.ts:276-298):
categorize every parsed release. -/
def processReleaseNotesPure (rd : List Release) : List ProcessedRelease :=
  rd.map processOne

/-- Scanner for one parenthesized group: the characters up to the first
parenthesis, which must be a closing one — the way `[^()]+\)` can match
after an opening parenthesis.  Returns the group's content and the text
after the closing parenthesis, or `none` when an opening parenthesis or
the end of the text is reached first. -/
def parenContent : List Char → Option (List Char × List Char)
  | [] => none
  | c :: rest =>
    if c = ')' then some ([], rest)
    else if c = '(' then none
    else (parenContent rest).map fun p => (c :: p.1, p.2)

/-- Leftmost match of the regex `[^\]]\(([^()]+)\)(?:\n|$)` used by
`extractContributors` (execute.ts:454): a character other than a right
bracket, an opening parenthesis, a nonempty parenthesis-free group, a
closing parenthesis, then a newline or the end of input.  Returns the
captured group of the leftmost match, scanning forward one character at
a time exactly as the JavaScript engine does. -/
def findContribMatch : List Char → Option (List Char)
  | [] => none
  | c :: rest =>
    (if c ≠ ']' ∧ rest.head? = some '(' then
      match parenContent (rest.drop 1) with
      | some (content, tail) =>
        if content ≠ [] ∧ (tail = [] ∨ tail.head? = some '\n') then
          some content
        else findContribMatch rest
      | none => findContribMatch rest
    else findContribMatch rest)

/-- `extractContributors` (execute.ts:452-464).  `item.match(regex)`
without a global flag returns `[wholeMatch, capturedGroup]`; the loop
walks that two-element array from the end, so the captured group is
tested first, and since the whole match contains the captured group as
a substring, the whole-match fallback can never succeed when the group
fails: the function returns the split group when it contains none of
`"http"`, `"www."`, `"CVE-"`, and `[]` otherwise. -/
def extractContributors (item : String) : List String :=
  match findContribMatch item.toList with
  | some group =>
    if !isSubstr "http".toList group ∧ !isSubstr "www.".toList group ∧
        !isSubstr "CVE-".toList group then
      (splitCS (trimL group)).map List.asString
    else []
  | none => []

/-- Anchored scan for the replacement regex ` \([^\)]+\)$` of
`extractTitleDescription` (execute.ts:474-475): at each position, a
match needs a space, an opening parenthesis and a nonempty
closing-parenthesis-free remainder running to the end of the text.
Returns the text before the leftmost such match (the stripped title),
or `none` when there is no match. -/
def findStripPos : List Char → Option (List Char)
  | [] => none
  | c :: rest =>
    if c = ' ' ∧ rest.head? = some '(' ∧ rest.drop 1 ≠ [] ∧
        !(rest.drop 1).contains ')' then
      some []
    else (findStripPos rest).map fun t => c :: t

/-- `replace(/ \([^\)]+\)$/, "")` (execute.ts:474-475): strip one
trailing parenthesized group, preceded by a space, from the end of the
text. -/
def stripAttr (l : List Char) : List Char :=
  if l.getLast? = some ')' then
    match findStripPos l.dropLast with
    | some t => t
    | none => l
  else l

/-- `item.indexOf("\n")` (execute.ts:467), as an option instead of the
JavaScript `-1` sentinel. -/
def idxOfNL : List Char → Option Nat
  | [] => none
  | c :: t => if c = '\n' then some 0 else (idxOfNL t).map (· + 1)

/-- Result record of `extractTitleDescription` (execute.ts:466-478). -/
structure TitleDesc where
  title : String
  description : String
deriving DecidableEq, Repr

/-- `extractTitleDescription` (execute.ts:466-478): when the first
newline sits at a positive index, the title is the text before it,
trimmed and with a trailing parenthesized group stripped, and the
description is the text after it, trimmed; otherwise (`titleEnd > 0`
fails both for a missing newline, index `-1`, and for a leading
newline, index `0`) the whole item with a trailing group stripped is
the title and the description is empty. -/
def extractTitleDescription (item : String) : TitleDesc :=
  let l := item.toList
  match idxOfNL l with
  | some n =>
    if n > 0 then
      ⟨(stripAttr (trimL (l.take n))).asString, (trimL (l.drop (n + 1))).asString⟩
    else ⟨(stripAttr l).asString, ""⟩
  | none => ⟨(stripAttr l).asString, ""⟩

/-- Digit run parser used for the CVE pattern `CVE-\d{4}-\d+`
(execute.ts:482): a maximal nonempty run of ASCII digits. -/
def takeDigits (l : List Char) : List Char := l.takeWhile Char.isDigit

/-- Tries the regex `CVE-\d{4}-\d+` at the current position: the
literal `CVE-`, exactly four digits, a dash, then a maximal nonempty
digit run. -/
def cveAt (l : List Char) : Option (List Char) :=
  match l with
  | 'C' :: 'V' :: 'E' :: '-' :: d1 :: d2 :: d3 :: d4 :: '-' :: rest =>
    if d1.isDigit ∧ d2.isDigit ∧ d3.isDigit ∧ d4.isDigit ∧
        (rest.head?.map Char.isDigit = some true) then
      some ('C' :: 'V' :: 'E' :: '-' :: d1 :: d2 :: d3 :: d4 :: '-' :: takeDigits rest)
    else none
  | _ => none

/-- Leftmost match of `item.match(/CVE-\d{4}-\d+/)` (execute.ts:482). -/
def findCve : List Char → Option (List Char)
  | [] => none
  | c :: rest =>
    match cveAt (c :: rest) with
    | some m => some m
    | none => findCve rest

/-- `significant` flag of the bug, feature and performance parsers
(execute.ts:498-500 etc.): the lowercased item contains
`"significant"` or `"major"`. -/
def significantFlag (item : String) : Bool :=
  isSubstr "significant".toList (toLowerL item.toList) ||
    isSubstr "major".toList (toLowerL item.toList)

/-- CVSS v3 `cvssData` (only the field the scraper reads). -/
structure CvssData where
  baseSeverity : String
deriving DecidableEq, Repr

/-- First element of a `cvssMetricV30`/`cvssMetricV31` array. -/
structure CvssV3Elem where
  cvssData : CvssData
  impactScore : Rat
deriving DecidableEq, Repr

/-- First element of a `cvssMetricV2` array: version 2 keeps
`baseSeverity` at the top level of the element. -/
structure CvssV2Elem where
  baseSeverity : String
  impactScore : Rat
deriving DecidableEq, Repr

/-- The `metrics` object returned by the NVD API.  Each field models
the first element of the corresponding array when the key is present
(`security.metrics.cvssMetricV30` is truthy exactly when the key is
present), and `none` when the key is absent. -/
structure Metrics where
  cvssMetricV30 : Option CvssV3Elem
  cvssMetricV31 : Option CvssV3Elem
  cvssMetricV2 : Option CvssV2Elem
deriving DecidableEq, Repr

/-- One entry of `summary.security` (execute.ts:480-493), with the
fields `addCVE` may add (`metrics`, `severity`, `impactScore`) modeled
as options that are `none` while the key is absent. -/
structure SecurityItem where
  cve : Option String
  title : String
  description : String
  fixedIn : String
  contributors : List String
  metrics : Option Metrics
  severity : Option String
  impactScore : Option Rat
deriving DecidableEq, Repr

/-- One entry of `summary.bugs` (execute.ts:495-509). -/
structure BugItem where
  title : String
  description : String
  fixedIn : String
  significant : Bool
  contributors : List String
deriving DecidableEq, Repr

/-- One entry of `summary.features` or `summary.performance`
(execute.ts:511-541). -/
structure FeatureItem where
  title : String
  description : String
  sinceVersion : String
  significant : Bool
  contributors : List String
deriving DecidableEq, Repr

/-- `parseSecurityItem` (execute.ts:480-493). -/
def parseSecurityItem (item : String) (version : String) : SecurityItem :=
  let td := extractTitleDescription item
  { cve := (findCve item.toList).map List.asString
    title := td.title
    description := td.description
    fixedIn := version
    contributors := extractContributors item
    metrics := none
    severity := none
    impactScore := none }

/-- `parseBugItem` (execute.ts:495-509). -/
def parseBugItem (item : String) (version : String) : BugItem :=
  let td := extractTitleDescription item
  { title := td.title
    description := td.description
    fixedIn := version
    significant := significantFlag item
    contributors := extractContributors item }

/-- `parseFeatureItem` and `parsePerformanceItem`
(execute.ts:511-541), which build identical records. -/
def parseFeatureItem (item : String) (version : String) : FeatureItem :=
  let td := extractTitleDescription item
  { title := td.title
    description := td.description
    sinceVersion := version
    significant := significantFlag item
    contributors := extractContributors item }

/-- JavaScript object assignment `summary.versionDates[version] =
releaseDate` on a string-keyed object kept as an association list:
overwrite in place when the key exists, append otherwise. -/
def upsert (m : List (String × String)) (k v : String) : List (String × String) :=
  if m.any fun p => p.1 == k then
    m.map fun p => if p.1 == k then (k, v) else p
  else m ++ [(k, v)]

/-- The `summary` object of `generateSummary` (execute.ts:307-319).
Its object literal has exactly the keys `versionDates`, `bugs`,
`features`, `performance`, `security`, and the rest of the function
only pushes into those arrays and writes into `versionDates`, so the
persisted summary has no other top-level member. -/
structure Summary where
  versionDates : List (String × String)
  bugs : List BugItem
  features : List FeatureItem
  performance : List FeatureItem
  security : List SecurityItem
deriving DecidableEq, Repr

/-- Top-level keys of the object literal that `generateSummary` builds
and persists (execute.ts:307-319); no statement of the function adds a
key to it. -/
def summaryObjectKeys : List String :=
  ["versionDates", "bugs", "features", "performance", "security"]

/-- The `releaseNotes.forEach((release) => ...)` body of
`generateSummary` (execute.ts:321-351): record the release date and
append every categorized item's parsed record; the parse functions
always return an object, which is truthy, so each `if (x) push(x)`
always pushes. -/
def addRelease (s : Summary) (r : ProcessedRelease) : Summary :=
  { versionDates := upsert s.versionDates r.version r.releaseDate
    security := s.security ++
      r.categories.security.map fun item => parseSecurityItem item r.version
    features := s.features ++
      r.categories.features.map fun item => parseFeatureItem item r.version
    performance := s.performance ++
      r.categories.performance.map fun item => parseFeatureItem item r.version
    bugs := s.bugs ++
      r.categories.bugs.map fun item => parseBugItem item r.version }

/-- The pure content of `generateSummary` (execute.ts:300-359). -/
def generateSummary (rs : List ProcessedRelease) : Summary :=
  rs.foldl addRelease ⟨[], [], [], [], []⟩

/-- `path.extname` restricted to what `parseReleaseNotes` needs: the
text from the last dot of the name to its end, empty when the name has
no dot or only a leading dot. -/
def extnameL (s : List Char) : List Char :=
  let ext := s.reverse.takeWhile fun c => c ≠ '.'
  if ext.length < s.length ∧ ext.length + 1 ≠ s.length then
    '.' :: ext.reverse
  else []

/-- One cached file as `parseReleaseNotes` consumes it: the directory
entry name together with the release fields that the cheerio/markdown
extraction (an external capability per the spec, execute.ts:121-150)
produces from its HTML content. -/
structure CachedFile where
  name : String
  version : String
  releaseDate : String
  changes : List String
deriving DecidableEq, Repr

/-- The `for (const file of files)` loop of `parseReleaseNotes`
(execute.ts:103-161): walk the directory listing in the given order —
the source applies no sorting to the result of `fs.readdir` — keep the
entries whose extension is `.html` and whose name is not
`index.html`, and push one release record per kept entry. -/
def parseReleaseNotes (files : List CachedFile) : List Release :=
  files.filterMap fun f =>
    if extnameL f.name.toList = ".html".toList ∧ f.name ≠ "index.html" then
      some ⟨f.version, f.releaseDate, f.changes⟩
    else none

/-- Severity derivation of the fresh-lookup path of `addCVE`
(execute.ts:388-394): v3.0 data when present, else v3.1, else v2, else
`"None"`. -/
def deriveSeverityFresh (m : Metrics) : String :=
  match m.cvssMetricV30 with
  | some e => e.cvssData.baseSeverity
  | none =>
    match m.cvssMetricV31 with
    | some e => e.cvssData.baseSeverity
    | none =>
      match m.cvssMetricV2 with
      | some e => e.baseSeverity
      | none => "None"

/-- Impact-score derivation of the fresh-lookup path of `addCVE`
(execute.ts:395-401). -/
def deriveImpactFresh (m : Metrics) : Rat :=
  match m.cvssMetricV30 with
  | some e => e.impactScore
  | none =>
    match m.cvssMetricV31 with
    | some e => e.impactScore
    | none =>
      match m.cvssMetricV2 with
      | some e => e.impactScore
      | none => 0

/-- Severity derivation of the recompute path of `addCVE`
(execute.ts:419-425), kept as its own definition because the source
spells the conditional chain out a second time. -/
def deriveSeverityRecompute (m : Metrics) : String :=
  match m.cvssMetricV30 with
  | some e => e.cvssData.baseSeverity
  | none =>
    match m.cvssMetricV31 with
    | some e => e.cvssData.baseSeverity
    | none =>
      match m.cvssMetricV2 with
      | some e => e.baseSeverity
      | none => "None"

/-- Impact-score derivation of the recompute path of `addCVE`
(execute.ts:426-432). -/
def deriveImpactRecompute (m : Metrics) : Rat :=
  match m.cvssMetricV30 with
  | some e => e.impactScore
  | none =>
    match m.cvssMetricV31 with
    | some e => e.impactScore
    | none =>
      match m.cvssMetricV2 with
      | some e => e.impactScore
      | none => 0

/-- One vulnerability record of an NVD response; the scraper reads
`vulnerabilities[0].cve.metrics` (execute.ts:387). -/
structure VulnRecord where
  metrics : Metrics
deriving DecidableEq, Repr

/-- An NVD API response as `addCVE` consumes it (execute.ts:381-383). -/
structure CveResponse where
  totalResults : Nat
  vulnerabilities : List VulnRecord
deriving DecidableEq, Repr

/-- The query key `CVEAPI + security.cve` (execute.ts:381): string
interpolation of a JavaScript `null` produces the text `"null"`. -/
def cveKey (it : SecurityItem) : String := it.cve.getD "null"

/-- The loop body of `addCVE` for one security item
(execute.ts:375-446), with the NVD lookup passed in as a function and
the number of performed lookups returned alongside the updated item.
When the item already carries `metrics`, no lookup happens and
`severity`/`impactScore` are recomputed from the stored metrics;
otherwise one lookup happens and the item is enriched only when the
response carries `totalResults == 1` (reading `vulnerabilities[0]`,
which the API guarantees to exist for a nonzero result count; an empty
array would be a runtime type error in the source, modeled here as
leaving the item unchanged). -/
def enrichOne (lookup : String → CveResponse) (it : SecurityItem) :
    SecurityItem × Nat :=
  match it.metrics with
  | some m =>
    ({ it with
        severity := some (deriveSeverityRecompute m)
        impactScore := some (deriveImpactRecompute m) }, 0)
  | none =>
    let resp := lookup (cveKey it)
    if resp.totalResults = 1 then
      match resp.vulnerabilities.head? with
      | some v =>
        ({ it with
            metrics := some v.metrics
            severity := some (deriveSeverityFresh v.metrics)
            impactScore := some (deriveImpactFresh v.metrics) }, 1)
      | none => (it, 1)
    else (it, 1)

/-- The pure content of `addCVE` (execute.ts:361-450): enrich every
security item in order; the summary's other fields are untouched.  The
second component counts the external lookups performed during the
run. -/
def addCVE (lookup : String → CveResponse) (s : Summary) : Summary × Nat :=
  let res := s.security.map (enrichOne lookup)
  ({ s with security := res.map Prod.fst }, (res.map Prod.snd).sum)

/-- Splits a character list at its first closing parenthesis, returning
the text before it and the text after it; the length bound on the
remainder is carried for termination of the replacement scanner. -/
def splitParen : (l : List Char) → Option { p : List Char × List Char // p.2.length < l.length }
  | [] => none
  | c :: rest =>
    if c = ')' then some ⟨([], rest), by simp⟩
    else
      match splitParen rest with
      | some ⟨(a, b), h⟩ => some ⟨(c :: a, b), by simpa using Nat.lt_succ_of_lt h⟩
      | none => none

/-- Match condition of the capture `[^)]+\.html[^)]*` of the two
rewriting regexes (execute.ts:553, 563) on the text between an opening
parenthesis and the first closing one: the literal `.html` must occur
at some positive index. -/
def matchCond (content : List Char) : Bool :=
  isSubstr ".html".toList (content.drop 1)

/-- `text.replace(/\(([^)]+\.html[^)]*)\)/g, ...)` (execute.ts:553,
563) for a replacement function `rw` mapping the captured group to the
full replacement text: scan left to right; at an opening parenthesis
whose group (the text up to the first closing parenthesis) satisfies
the capture, emit the replacement and continue after the closing
parenthesis; otherwise emit one character and continue, as the
JavaScript engine advances the scan position by one on a failed
match. -/
def replPass (rw : List Char → List Char) : List Char → List Char
  | [] => []
  | c :: rest =>
    if c = '(' then
      match splitParen rest with
      | some ⟨(content, after), hlt⟩ =>
        if matchCond content then rw content ++ replPass rw after
        else c :: replPass rw rest
      | none => c :: replPass rw rest
    else c :: replPass rw rest
termination_by l => l.length
decreasing_by
  all_goals simp_wf
  all_goals first
    | exact Nat.lt_succ_of_lt (by simpa using hlt)
    | omega

/-- `killLinks` (execute.ts:562-566): the captured group is nonempty,
hence truthy, so every match is replaced by the empty string. -/
def killLinksL (l : List Char) : List Char := replPass (fun _ => []) l

/-- JavaScript `a || b` on strings: the empty string is falsy. -/
def jsOr (a b : String) : String := if a = "" then b else a

/-- The `baseUrl` of `updateLinks` (execute.ts:551-552):
`https://www.postgresql.org/docs/` followed by the text before the
first dot of the effective version (`effectiveVersion.split('.')[0]`)
and a slash. -/
def mkBase (version : String) : List Char :=
  "https://www.postgresql.org/docs/".toList ++
    ((jsOr version "0").toList.takeWhile fun c => c ≠ '.') ++ ['/']

/-- Replacement function of `updateLinks` (execute.ts:553-558): a group
already starting with `http` is left as matched, any other group is
prefixed with the base URL inside its parentheses. -/
def updateRw (base : List Char) (content : List Char) : List Char :=
  if "http".toList.isPrefixOf content then '(' :: (content ++ [')'])
  else '(' :: ((base ++ content) ++ [')'])

/-- `updateLinks(text, version)` (execute.ts:549-559) on character
lists. -/
def updateLinksL (base : List Char) (l : List Char) : List Char :=
  replPass (updateRw base) l

/-- `killLinks` on strings. -/
def killLinks (text : String) : String := (killLinksL text.toList).asString

/-- `updateLinks` on strings. -/
def updateLinks (text version : String) : String :=
  (updateLinksL (mkBase version) text.toList).asString

/-- The item mapping of `updateFormattedLinks` for a bug item
(execute.ts:571-579): `item.fixedIn || item.sinceVersion || '0'`
evaluates to the item's `fixedIn` when that is truthy and `'0'`
otherwise (a bug record has no `sinceVersion`); empty titles and
descriptions are falsy and left alone. -/
def updBug (it : BugItem) : BugItem :=
  { it with
      title := if it.title = "" then it.title else killLinks it.title
      description :=
        if it.description = "" then it.description
        else updateLinks it.description (jsOr it.fixedIn "0") }

/-- The item mapping of `updateFormattedLinks` for a feature or
performance item (execute.ts:571-579), whose version field is
`sinceVersion`. -/
def updFeature (it : FeatureItem) : FeatureItem :=
  { it with
      title := if it.title = "" then it.title else killLinks it.title
      description :=
        if it.description = "" then it.description
        else updateLinks it.description (jsOr it.sinceVersion "0") }

/-- The item mapping of `updateFormattedLinks` for a security item
(execute.ts:571-579); all other fields, `metrics` included, ride along
through the object spread. -/
def updSecurity (it : SecurityItem) : SecurityItem :=
  { it with
      title := if it.title = "" then it.title else killLinks it.title
      description :=
        if it.description = "" then it.description
        else updateLinks it.description (jsOr it.fixedIn "0") }

/-- The pure content of `updateFormattedLinks` (execute.ts:543-590):
rewrite every item of the four category arrays; `versionDates` is not
touched. -/
def updateFormattedLinksFun (s : Summary) : Summary :=
  { s with
      bugs := s.bugs.map updBug
      features := s.features.map updFeature
      performance := s.performance.map updFeature
      security := s.security.map updSecurity }

/-- Spec-side restatement of the title rule of the
Title/Description/Contributor parser, for comparison with the source's
`extractTitleDescription`: text up to the first line break, trimmed,
with one trailing parenthesized group stripped — amended with the
guard that the first character itself is not the line break, which the
source's `titleEnd > 0` test imposes. -/
def titleSpec (item : String) : String :=
  let l := item.toList
  if l.contains '\n' ∧ l.head? ≠ some '\n' then
    (stripAttr (trimL (l.takeWhile fun c => c ≠ '\n'))).asString
  else (stripAttr l).asString

/-- Spec-side restatement of the description rule: everything after the
first line break, trimmed, under the same amended guard; empty
otherwise. -/
def descriptionSpec (item : String) : String :=
  let l := item.toList
  if l.contains '\n' ∧ l.head? ≠ some '\n' then
    (trimL ((l.dropWhile fun c => c ≠ '\n').drop 1)).asString
  else ""

theorem findCat_false_table (lc : List Char) :
    findCat false lc keywordTable =
      if hitsAny securityKeywords lc then some Cat.security else none := by
  simp [keywordTable, findCat, beq_iff_eq]

theorem findCat_true_table (lc : List Char) :
    findCat true lc keywordTable =
      if hitsAny securityKeywords lc then some Cat.security
      else if hitsAny performanceKeywords lc then some Cat.performance
      else if hitsAny bugsKeywords lc then some Cat.bugs
      else if hitsAny featuresKeywords lc then some Cat.features
      else none := by
  simp [keywordTable, findCat, beq_iff_eq]

theorem classifyOne_false (c : String) :
    classifyOne false c =
      if hitsAny securityKeywords (toLowerL c.toList) then Cat.security
      else Cat.bugs := by
  rw [classifyOne, findCat_false_table]
  by_cases h : hitsAny securityKeywords (toLowerL c.toList) = true <;>
    simp_all

/-- C1: classification is total and exhaustive — the four buckets of
`categorizeChanges` partition the input items, so their sizes sum to
the number of input items, for every input list and either value of the
major-release flag. -/
theorem C1_classification_total (changes : List String) (isMajor : Bool) :
    (categorizeChanges changes isMajor).security.length +
      (categorizeChanges changes isMajor).performance.length +
      (categorizeChanges changes isMajor).features.length +
      (categorizeChanges changes isMajor).bugs.length = changes.length := by
  induction changes with
  | nil => rfl
  | cons c rest ih =>
    cases h : classifyOne isMajor c <;>
      simp [categorizeChanges, addToCat, h] <;> omega

/-- C3 counterexample: the item `"added fix"` matches the features
keyword `"added"` and matches no security and no performance keyword,
so under the claimed test order (security, performance, features,
fallback bugs) it would land in `features` for a major release; the
code tests the `bugs` keyword set before `features` (the `keywords`
object literal inserts `bugs` third), `"fix"` hits, and the item lands
in `bugs`. -/
theorem C3_counterexample :
    categorizeChanges ["added fix"] true = ⟨[], [], [], ["added fix"]⟩ ∧
    hitsAny featuresKeywords (toLowerL "added fix".toList) = true ∧
    hitsAny securityKeywords (toLowerL "added fix".toList) = false ∧
    hitsAny performanceKeywords (toLowerL "added fix".toList) = false := by
  refine ⟨?_, ?_, ?_, ?_⟩ <;> decide

/-- C3 amended: for a major release the first-match-wins order of the
category tests is security, performance, bugs, features — the `bugs`
keyword set is tested before the `features` one — and only an item
matching none of the four keyword sets falls to `bugs` by the
fallback. -/
theorem C3_amended_match_order (change : String) :
    (classifyOne true change = Cat.security ↔
      hitsAny securityKeywords (toLowerL change.toList) = true) ∧
    (classifyOne true change = Cat.performance ↔
      (!hitsAny securityKeywords (toLowerL change.toList) &&
        hitsAny performanceKeywords (toLowerL change.toList)) = true) ∧
    (classifyOne true change = Cat.features ↔
      (!hitsAny securityKeywords (toLowerL change.toList) &&
        !hitsAny performanceKeywords (toLowerL change.toList) &&
        !hitsAny bugsKeywords (toLowerL change.toList) &&
        hitsAny featuresKeywords (toLowerL change.toList)) = true) ∧
    (classifyOne true change = Cat.bugs ↔
      (!hitsAny securityKeywords (toLowerL change.toList) &&
        !hitsAny performanceKeywords (toLowerL change.toList) &&
        (hitsAny bugsKeywords (toLowerL change.toList) ||
          !hitsAny featuresKeywords (toLowerL change.toList))) = true) := by
  rw [classifyOne, findCat_true_table]
  cases h1 : hitsAny securityKeywords (toLowerL change.toList) <;>
  cases h2 : hitsAny performanceKeywords (toLowerL change.toList) <;>
  cases h3 : hitsAny bugsKeywords (toLowerL change.toList) <;>
  cases h4 : hitsAny featuresKeywords (toLowerL change.toList) <;>
    simp [h1, h2, h3, h4]

/-- C4: when the version does not end in `.0` the major flag passed by
`processReleaseNotes` is false and the loop breaks before the
performance test, so `performance` and `features` stay empty, items
hitting the security keyword land in `security` and every other item
lands in `bugs`; in particular an item containing `"new feature"` in
release `16.1` is classified as a bug. -/
theorem C4_major_release_gating :
    (∀ r : Release, (processOne r).categories =
      categorizeChanges r.changes (jsEndsWith r.version ".0")) ∧
    (∀ changes : List String,
      categorizeChanges changes false =
        ⟨[],
          changes.filter (fun c => hitsAny securityKeywords (toLowerL c.toList)),
          [],
          changes.filter (fun c => !hitsAny securityKeywords (toLowerL c.toList))⟩) ∧
    jsEndsWith "16.1" ".0" = false ∧
    (processOne ⟨"16.1", "2023-11-09", ["Contains a new feature"]⟩).categories =
      ⟨[], [], [], ["Contains a new feature"]⟩ := by
  refine ⟨fun r => rfl, ?_, by decide, by decide⟩
  intro changes
  induction changes with
  | nil => rfl
  | cons c rest ih =>
    rw [categorizeChanges, ih, classifyOne_false]
    by_cases h : hitsAny securityKeywords (toLowerL c.toList) = true <;>
      simp_all [addToCat]

/-- C2 counterexample: two directory listings that are permutations of
each other, over the same two cached documents, for which
`parseReleaseNotes` produces different outputs — the source iterates
the `fs.readdir` result in the order given, without sorting, so the
output order follows the listing order. -/
theorem C2_counterexample :
    ([⟨"a.html", "1.0", "d1", []⟩, ⟨"b.html", "2.0", "d2", []⟩] :
        List CachedFile).Perm
      [⟨"b.html", "2.0", "d2", []⟩, ⟨"a.html", "1.0", "d1", []⟩] ∧
    parseReleaseNotes [⟨"a.html", "1.0", "d1", []⟩, ⟨"b.html", "2.0", "d2", []⟩] ≠
      parseReleaseNotes [⟨"b.html", "2.0", "d2", []⟩, ⟨"a.html", "1.0", "d1", []⟩] := by
  exact ⟨List.Perm.swap _ _ _, by decide⟩

/-- C2 amended: the output of `parseReleaseNotes` is determined by the
directory listing as a sequence; permuting the listing permutes the
output accordingly (so the multiset of parsed releases depends only on
the set of cached documents, but the order — and hence the bytes of
the final artifact — follows the unsorted `fs.readdir` order). -/
theorem C2_amended_perm (files1 files2 : List CachedFile)
    (h : files1.Perm files2) :
    (parseReleaseNotes files1).Perm (parseReleaseNotes files2) :=
  List.Perm.filterMap _ h

theorem C2_amended_perm_witness :
    ([⟨"a.html", "1.0", "d1", []⟩, ⟨"b.html", "2.0", "d2", []⟩] :
        List CachedFile).Perm
      [⟨"b.html", "2.0", "d2", []⟩, ⟨"a.html", "1.0", "d1", []⟩] ∧
    (parseReleaseNotes
        [⟨"a.html", "1.0", "d1", []⟩, ⟨"b.html", "2.0", "d2", []⟩]).Perm
      (parseReleaseNotes
        [⟨"b.html", "2.0", "d2", []⟩, ⟨"a.html", "1.0", "d1", []⟩]) :=
  ⟨List.Perm.swap _ _ _, C2_amended_perm _ _ (List.Perm.swap _ _ _)⟩

/-- C10: both the fresh-lookup path and the recompute path of `addCVE`
derive severity and impact score by the same rule, and that rule
prefers schema v3.0 data, then v3.1, then v2, and defaults to
`("None", 0)` when no schema is present. -/
theorem C10_metric_precedence :
    (∀ m : Metrics,
      deriveSeverityFresh m = deriveSeverityRecompute m ∧
      deriveImpactFresh m = deriveImpactRecompute m) ∧
    (∀ (e : CvssV3Elem) (o31 : Option CvssV3Elem) (o2 : Option CvssV2Elem),
      deriveSeverityFresh ⟨some e, o31, o2⟩ = e.cvssData.baseSeverity ∧
      deriveImpactFresh ⟨some e, o31, o2⟩ = e.impactScore) ∧
    (∀ (e : CvssV3Elem) (o2 : Option CvssV2Elem),
      deriveSeverityFresh ⟨none, some e, o2⟩ = e.cvssData.baseSeverity ∧
      deriveImpactFresh ⟨none, some e, o2⟩ = e.impactScore) ∧
    (∀ e : CvssV2Elem,
      deriveSeverityFresh ⟨none, none, some e⟩ = e.baseSeverity ∧
      deriveImpactFresh ⟨none, none, some e⟩ = e.impactScore) ∧
    (deriveSeverityFresh ⟨none, none, none⟩ = "None" ∧
      deriveImpactFresh ⟨none, none, none⟩ = 0) := by
  refine ⟨fun m => ?_, fun e o31 o2 => ⟨rfl, rfl⟩, fun e o2 => ⟨rfl, rfl⟩,
    fun e => ⟨rfl, rfl⟩, rfl, rfl⟩
  rcases m with ⟨o30, o31, o2⟩
  cases o30 <;> cases o31 <;> cases o2 <;> exact ⟨rfl, rfl⟩

/-- C5 counterexample: for the spec's own example input
`"See https://example.com/foo (readme)"` the code returns
`["readme"]`, not the claimed empty sequence — the URL-exclusion test
inspects only the text captured between the parentheses, and the URL
sits outside them. -/
theorem C5_counterexample :
    extractContributors "See https://example.com/foo (readme)" = ["readme"] ∧
    extractContributors "See https://example.com/foo (readme)" ≠ [] := by
  exact ⟨by decide, by decide⟩

/-- C5 amended: the extractor takes the first (not last) parenthesized
group that is preceded by a character other than `]`, has
parenthesis-free contents and ends a line or the input; when that
group's own text contains `"http"`, `"www."` or `"CVE-"` the result is
empty (no fallback to a later group), and otherwise its trimmed
contents are split on `", "`.  Witnessed on the spec's two examples,
on a two-group input showing first-match (not last-match) behavior,
and on a group whose own text carries a URL. -/
theorem C5_amended_first_group :
    extractContributors "Fix bug in index (Alice, Bob)" = ["Alice", "Bob"] ∧
    extractContributors "See https://example.com/foo (readme)" = ["readme"] ∧
    extractContributors "A (x)\nB (y)" = ["x"] ∧
    extractContributors "Fix (see http://x.y)" = [] := by
  refine ⟨?_, ?_, ?_, ?_⟩ <;> decide

/-- C6 counterexample: the summary object literal of `generateSummary`
has exactly the keys `versionDates`, `bugs`, `features`,
`performance`, `security` and the function never adds another member,
so the persisted `ReleaseNotesSummary` carries no aggregate
`contributors` field. -/
theorem C6_counterexample : "contributors" ∉ summaryObjectKeys := by
  decide

theorem generateSummary_security_aux (rs : List ProcessedRelease) (acc : Summary) :
    (rs.foldl addRelease acc).security =
      acc.security ++ rs.flatMap (fun r =>
        r.categories.security.map fun item => parseSecurityItem item r.version) := by
  induction rs generalizing acc with
  | nil => simp
  | cons r rest ih => simp [addRelease, ih, List.append_assoc]

theorem generateSummary_features_aux (rs : List ProcessedRelease) (acc : Summary) :
    (rs.foldl addRelease acc).features =
      acc.features ++ rs.flatMap (fun r =>
        r.categories.features.map fun item => parseFeatureItem item r.version) := by
  induction rs generalizing acc with
  | nil => simp
  | cons r rest ih => simp [addRelease, ih, List.append_assoc]

theorem generateSummary_performance_aux (rs : List ProcessedRelease) (acc : Summary) :
    (rs.foldl addRelease acc).performance =
      acc.performance ++ rs.flatMap (fun r =>
        r.categories.performance.map fun item => parseFeatureItem item r.version) := by
  induction rs generalizing acc with
  | nil => simp
  | cons r rest ih => simp [addRelease, ih, List.append_assoc]

theorem generateSummary_bugs_aux (rs : List ProcessedRelease) (acc : Summary) :
    (rs.foldl addRelease acc).bugs =
      acc.bugs ++ rs.flatMap (fun r =>
        r.categories.bugs.map fun item => parseBugItem item r.version) := by
  induction rs generalizing acc with
  | nil => simp
  | cons r rest ih => simp [addRelease, ih, List.append_assoc]

/-- C6 amended: the summary produced by `generateSummary` consists of
`versionDates` and the four category lists only; each category list is
exactly the per-release parse of the categorized items in processing
order, and contributor names live inside the individual parsed records
(each record carries `extractContributors` of its fragment) — no
deduplicated aggregate contributor set is built. -/
theorem C6_amended_no_aggregate (rs : List ProcessedRelease) :
    (generateSummary rs).security = rs.flatMap (fun r =>
      r.categories.security.map fun item => parseSecurityItem item r.version) ∧
    (generateSummary rs).features = rs.flatMap (fun r =>
      r.categories.features.map fun item => parseFeatureItem item r.version) ∧
    (generateSummary rs).performance = rs.flatMap (fun r =>
      r.categories.performance.map fun item => parseFeatureItem item r.version) ∧
    (generateSummary rs).bugs = rs.flatMap (fun r =>
      r.categories.bugs.map fun item => parseBugItem item r.version) := by
  refine ⟨?_, ?_, ?_, ?_⟩
  · simpa using generateSummary_security_aux rs ⟨[], [], [], [], []⟩
  · simpa using generateSummary_features_aux rs ⟨[], [], [], [], []⟩
  · simpa using generateSummary_performance_aux rs ⟨[], [], [], [], []⟩
  · simpa using generateSummary_bugs_aux rs ⟨[], [], [], [], []⟩

theorem enrichOne_metrics_eq (lookup : String → CveResponse)
    (it : SecurityItem) (m : Metrics) (hm : it.metrics = some m) :
    enrichOne lookup it =
      ({ it with
          severity := some (deriveSeverityRecompute m)
          impactScore := some (deriveImpactRecompute m) }, 0) := by
  simp [enrichOne, hm]

theorem enrichOne_idem (lookup : String → CveResponse)
    (it : SecurityItem) (hm : it.metrics.isSome = true) :
    enrichOne lookup (enrichOne lookup it).1 = ((enrichOne lookup it).1, 0) := by
  obtain ⟨m, hm2⟩ := Option.isSome_iff_exists.mp hm
  rcases it with ⟨cve, t, d, f, cs, mets, sev, imp⟩
  cases hm2
  simp [enrichOne]

/-- C7: on a summary whose security items all already carry a
`metrics` field, a run of the Enricher performs zero external lookups,
and a second run returns exactly the first run's output (severity and
impact score included) while again performing zero lookups. -/
theorem addCVE_eq (lookup : String → CveResponse) (s : Summary) :
    addCVE lookup s =
      ({ s with security := s.security.map fun it => (enrichOne lookup it).1 },
        (s.security.map fun it => (enrichOne lookup it).2).sum) := by
  simp only [addCVE, List.map_map]
  rfl

/-- C7: on a summary whose security items all already carry a
`metrics` field, a run of the Enricher performs zero external lookups,
and a second run returns exactly the first run's output (severity and
impact score included) while again performing zero lookups. -/
theorem C7_enrichment_idempotent (lookup : String → CveResponse) (s : Summary)
    (h : ∀ it ∈ s.security, it.metrics.isSome = true) :
    (addCVE lookup s).2 = 0 ∧
    addCVE lookup (addCVE lookup s).1 = addCVE lookup s := by
  have hq : (s.security.map fun it => (enrichOne lookup it).2).sum = 0 := by
    refine List.sum_eq_zero fun x hx => ?_
    simp only [List.mem_map] at hx
    obtain ⟨it, hit, rfl⟩ := hx
    obtain ⟨m, hm⟩ := Option.isSome_iff_exists.mp (h it hit)
    simp [enrichOne_metrics_eq lookup it m hm]
  have hl1 : ∀ it2 ∈ s.security.map fun it => (enrichOne lookup it).1,
      enrichOne lookup it2 = (it2, 0) := by
    intro it2 hit2
    simp only [List.mem_map] at hit2
    obtain ⟨it, hit, rfl⟩ := hit2
    exact enrichOne_idem lookup it (h it hit)
  have hA : addCVE lookup s =
      ({ s with security := s.security.map fun it => (enrichOne lookup it).1 }, 0) := by
    rw [addCVE_eq, hq]
  have hfst : (s.security.map fun it => (enrichOne lookup it).1).map
      (fun it => (enrichOne lookup it).1) =
      s.security.map fun it => (enrichOne lookup it).1 := by
    have step := List.map_congr_left
      (f := fun it => (enrichOne lookup it).1) (g := id)
      (fun it2 hit2 => congrArg Prod.fst (hl1 it2 hit2))
    simpa using step
  have hsnd : ((s.security.map fun it => (enrichOne lookup it).1).map
      (fun it => (enrichOne lookup it).2)).sum = 0 := by
    refine List.sum_eq_zero fun x hx => ?_
    obtain ⟨it2, hit2, rfl⟩ := List.mem_map.mp hx
    exact congrArg Prod.snd (hl1 it2 hit2)
  have goal1 : addCVE lookup
      ({ s with security := s.security.map fun it => (enrichOne lookup it).1 } : Summary) =
      ({ s with security := s.security.map fun it => (enrichOne lookup it).1 }, 0) := by
    rw [addCVE_eq]
    refine Prod.ext ?_ hsnd
    simp [hfst]
  refine ⟨by rw [hA], ?_⟩
  rw [hA]
  exact goal1

theorem C7_enrichment_idempotent_witness :
    (addCVE (fun _ => ⟨0, []⟩)
        ⟨[("16.0", "2023-09-14")], [], [], [],
          [⟨some "CVE-2024-0001", "t", "", "16.0", [],
            some ⟨none, none, none⟩, none, none⟩]⟩).2 = 0 ∧
    addCVE (fun _ => ⟨0, []⟩)
        (addCVE (fun _ => ⟨0, []⟩)
          ⟨[("16.0", "2023-09-14")], [], [], [],
            [⟨some "CVE-2024-0001", "t", "", "16.0", [],
              some ⟨none, none, none⟩, none, none⟩]⟩).1 =
      addCVE (fun _ => ⟨0, []⟩)
        ⟨[("16.0", "2023-09-14")], [], [], [],
          [⟨some "CVE-2024-0001", "t", "", "16.0", [],
            some ⟨none, none, none⟩, none, none⟩]⟩ :=
  C7_enrichment_idempotent _ _ (by decide)

theorem idxOfNL_take_drop :
    ∀ (l : List Char) (n : Nat), idxOfNL l = some n →
      (l.takeWhile fun c => c ≠ '\n') = l.take n ∧
      (l.dropWhile fun c => c ≠ '\n') = l.drop n := by
  intro l
  induction l with
  | nil => intro n hn; simp [idxOfNL] at hn
  | cons c t ih =>
    intro n hn
    by_cases hc : c = '\n'
    · subst hc
      simp [idxOfNL] at hn
      subst hn
      simp [List.takeWhile, List.dropWhile]
    · simp [idxOfNL, hc] at hn
      obtain ⟨m, hm, rfl⟩ := hn
      obtain ⟨h1, h2⟩ := ih m hm
      simp only [ne_eq, decide_not] at h1 h2
      simp [List.takeWhile, List.dropWhile, hc, h1, h2]

theorem idxOfNL_none (l : List Char) (h : idxOfNL l = none) :
    l.contains '\n' = false := by
  induction l with
  | nil => rfl
  | cons c t ih =>
    by_cases hc : c = '\n'
    · subst hc; simp [idxOfNL] at h
    · simp [idxOfNL, hc] at h
      simp only [List.contains_cons, ih h, Bool.or_false]
      simpa using fun hh => hc hh.symm

theorem idxOfNL_some_contains (l : List Char) (n : Nat)
    (h : idxOfNL l = some n) : l.contains '\n' = true := by
  induction l generalizing n with
  | nil => simp [idxOfNL] at h
  | cons c t ih =>
    by_cases hc : c = '\n'
    · subst hc; simp
    · simp [idxOfNL, hc] at h
      obtain ⟨m, hm, rfl⟩ := h
      have := ih m hm
      simp only [List.contains_cons, this, Bool.or_true]

theorem idxOfNL_zero (l : List Char) (h : idxOfNL l = some 0) :
    l.head? = some '\n' := by
  cases l with
  | nil => simp [idxOfNL] at h
  | cons c t =>
    by_cases hc : c = '\n'
    · subst hc; rfl
    · simp [idxOfNL, hc] at h

theorem idxOfNL_succ_head (l : List Char) (m : Nat)
    (h : idxOfNL l = some (m + 1)) : l.head? ≠ some '\n' := by
  cases l with
  | nil => simp [idxOfNL] at h
  | cons c t =>
    by_cases hc : c = '\n'
    · subst hc; simp [idxOfNL] at h
    · simp [hc]

/-- C9 counterexample: the fragment `"\nabc"` contains a line break,
so per the claim its title would be the (empty) text before the break
and its description the trimmed remainder `"abc"`; but `indexOf`
returns `0` and the source's `titleEnd > 0` test sends the fragment
down the no-line-break branch, making the whole fragment the title and
the description empty. -/
theorem C9_counterexample :
    extractTitleDescription "\nabc" = ⟨"\nabc", ""⟩ ∧
    ("\nabc".toList.contains '\n') = true ∧
    extractTitleDescription "\nabc" ≠ ⟨"", "abc"⟩ := by
  exact ⟨by decide, by decide, by decide⟩

/-- C9 amended: when the first line break of the fragment sits at a
positive index, the title is the text before it (trimmed, with one
trailing space-plus-parenthesized group stripped) and the description
is the text after it, trimmed; a fragment without a line break — or,
the amendment, one whose very first character is the line break — is
handled as a whole: the fragment itself with a trailing group stripped
becomes the title and the description is empty. -/
theorem C9_amended_title_rule (item : String) :
    extractTitleDescription item = ⟨titleSpec item, descriptionSpec item⟩ := by
  unfold extractTitleDescription titleSpec descriptionSpec
  cases hidx : idxOfNL item.toList with
  | none =>
    have hc := idxOfNL_none _ hidx
    simp [String.toList] at hidx hc
    simp [hidx, hc]
  | some n =>
    have hc := idxOfNL_some_contains _ _ hidx
    cases n with
    | zero =>
      have hh := idxOfNL_zero _ hidx
      simp [String.toList] at hidx hc hh
      simp [hidx, hc, hh]
    | succ m =>
      have hh := idxOfNL_succ_head _ _ hidx
      obtain ⟨h1, h2⟩ := idxOfNL_take_drop _ _ hidx
      simp [String.toList] at hidx hc hh h1 h2
      simp [hidx, hc, hh, h1, h2, List.drop_drop]

theorem isSubstr_cons (n : List Char) (c : Char) (t : List Char)
    (h : isSubstr n t = true) : isSubstr n (c :: t) = true := by
  simp [isSubstr, h]

theorem isSubstr_drop_one (n l : List Char) (h : isSubstr n l = false) :
    isSubstr n (l.drop 1) = false := by
  cases l with
  | nil => exact h
  | cons c t =>
    simp only [isSubstr, Bool.or_eq_false_iff] at h
    simpa using h.2

theorem isSubstr_of_drop_one (n l : List Char)
    (h : isSubstr n (l.drop 1) = true) : isSubstr n l = true := by
  cases l with
  | nil => exact h
  | cons c t => exact isSubstr_cons n c t (by simpa using h)

theorem isSubstr_append_left (n pre s : List Char)
    (h : isSubstr n s = true) : isSubstr n (pre ++ s) = true := by
  induction pre with
  | nil => simpa using h
  | cons c t ih => exact isSubstr_cons n c _ ih

theorem isPrefixOf_self_append (a b : List Char) :
    a.isPrefixOf (a ++ b) = true := by
  induction a with
  | nil => simp [List.isPrefixOf]
  | cons c t ih => simp [List.isPrefixOf, ih]

theorem isPrefixOf_append_of (a b c : List Char)
    (h : a.isPrefixOf b = true) : a.isPrefixOf (b ++ c) = true := by
  induction a generalizing b with
  | nil => simp [List.isPrefixOf]
  | cons x xs ih =>
    cases b with
    | nil => simp [List.isPrefixOf] at h
    | cons y ys =>
      simp only [List.isPrefixOf, Bool.and_eq_true] at h
      simpa [List.isPrefixOf, h.1] using ih ys h.2

theorem splitParen_none_of (l : List Char) (h : ')' ∉ l) :
    splitParen l = none := by
  induction l with
  | nil => rfl
  | cons c t ih =>
    have hc : ¬c = ')' := fun hh => h (hh ▸ List.mem_cons_self c t)
    have ht : ')' ∉ t := fun hh => h (List.mem_cons_of_mem c hh)
    simp [splitParen, hc, ih ht]

theorem splitParen_of_none (l : List Char) (h : splitParen l = none) :
    ')' ∉ l := by
  induction l with
  | nil => simp
  | cons c t ih =>
    by_cases hc : c = ')'
    · subst hc; simp [splitParen] at h
    · simp only [splitParen, hc, if_false] at h
      cases hsp : splitParen t with
      | none =>
        intro hh
        rcases List.mem_cons.mp hh with h1 | h1
        · exact hc h1.symm
        · exact ih hsp h1
      | some p => rw [hsp] at h; simp at h

theorem splitParen_some_spec (l : List Char)
    (p : { q : List Char × List Char // q.2.length < l.length })
    (h : splitParen l = some p) :
    l = p.val.1 ++ ')' :: p.val.2 ∧ ')' ∉ p.val.1 := by
  induction l with
  | nil => simp [splitParen] at h
  | cons c t ih =>
    by_cases hc : c = ')'
    · subst hc
      simp only [splitParen, if_true] at h
      have hv : p.val = ([], t) := by
        have := congrArg (Option.map Subtype.val) h
        simpa using this.symm
      simp [hv]
    · simp only [splitParen, hc, if_false] at h
      cases hsp : splitParen t with
      | none => rw [hsp] at h; simp at h
      | some q =>
        rw [hsp] at h
        simp only [Option.some.injEq] at h
        obtain ⟨h1, h2⟩ := ih q hsp
        have hv : p.val = (c :: q.val.1, q.val.2) := by
          rw [← h]
        rw [hv]
        refine ⟨by simpa using h1, ?_⟩
        intro hh
        rcases List.mem_cons.mp hh with h3 | h3
        · exact hc h3.symm
        · exact h2 h3

theorem splitParen_append (a b : List Char) (h : ')' ∉ a) :
    splitParen (a ++ ')' :: b) =
      some ⟨(a, b), by simp [List.length_append]; omega⟩ := by
  induction a with
  | nil => simp [splitParen]
  | cons c t ih =>
    have hc : ¬c = ')' := fun hh => h (hh ▸ List.mem_cons_self c t)
    have ht : ')' ∉ t := fun hh => h (List.mem_cons_of_mem c hh)
    simp [splitParen, hc, ih ht]

theorem replPass_nil (f : List Char → List Char) : replPass f [] = [] := by
  rw [replPass]

theorem replPass_no_close (f : List Char → List Char) :
    ∀ l, ')' ∉ l → replPass f l = l := by
  intro l
  induction l with
  | nil => intro _; exact replPass_nil f
  | cons c t ih =>
    intro h
    have ht : ')' ∉ t := fun hh => h (List.mem_cons_of_mem c hh)
    by_cases hc : c = '('
    · subst hc
      rw [replPass]
      simp [splitParen_none_of t ht, ih ht]
    · rw [replPass]
      simp [hc, ih ht]

theorem replPass_fail_region (f : List Char → List Char) :
    ∀ content after, ')' ∉ content → matchCond content = false →
      replPass f (content ++ ')' :: after) =
        content ++ ')' :: replPass f after := by
  intro content
  induction content with
  | nil =>
    intro after _ _
    rw [List.nil_append, replPass]
    simp
  | cons c cs ih =>
    intro after hnp hmc
    have hcs : ')' ∉ cs := fun hh => hnp (List.mem_cons_of_mem c hh)
    have hsub : isSubstr ".html".toList cs = false := by
      simpa [matchCond] using hmc
    have hmc_cs : matchCond cs = false := by
      simpa [matchCond] using isSubstr_drop_one _ _ hsub
    by_cases hc : c = '('
    · subst hc
      rw [List.cons_append, replPass]
      simp [splitParen_append cs after hcs, hmc_cs, ih after hcs hmc_cs]
    · rw [List.cons_append, replPass]
      simp [hc, ih after hcs hmc_cs]

theorem replPass_idem_of (f : List Char → List Char)
    (hrw : ∀ content, ')' ∉ content → matchCond content = true →
      f content = [] ∨
      ∃ nc, f content = '(' :: (nc ++ [')']) ∧ ')' ∉ nc ∧
        matchCond nc = true ∧ f nc = '(' :: (nc ++ [')'])) :
    ∀ l, replPass f (replPass f l) = replPass f l := by
  have main : ∀ fuel l, l.length ≤ fuel →
      replPass f (replPass f l) = replPass f l := by
    intro fuel
    induction fuel with
    | zero =>
      intro l hl
      have : l = [] := List.length_eq_zero.mp (Nat.le_zero.mp hl)
      subst this
      rw [replPass_nil, replPass_nil]
    | succ n ih =>
      intro l hl
      cases l with
      | nil => rw [replPass_nil, replPass_nil]
      | cons c rest =>
        have hrest_le : rest.length ≤ n := by
          simpa using Nat.lt_succ_iff.mp (Nat.lt_of_lt_of_le (by simp) hl)
        by_cases hc : c = '('
        · subst hc
          cases hsp : splitParen rest with
          | none =>
            have hnr : ')' ∉ rest := splitParen_of_none rest hsp
            have hall : ')' ∉ '(' :: rest := by
              simpa using hnr
            rw [replPass_no_close f _ hall, replPass_no_close f _ hall]
          | some p =>
            obtain ⟨⟨content, after⟩, hlen⟩ := p
            obtain ⟨hr_eq, hr_np⟩ := splitParen_some_spec rest _ hsp
            have hafter_le : after.length ≤ n := by
              have h1 : after.length < rest.length := hlen
              omega
            by_cases hmc : matchCond content = true
            · have hrepl1 : replPass f ('(' :: rest) =
                  f content ++ replPass f after := by
                rw [replPass]
                simp [hsp, hmc]
              rcases hrw content hr_np hmc with hz |
                ⟨nc, hnc_eq, hnc_np, hnc_mc, hnc_rw⟩
              · rw [hrepl1, hz, List.nil_append]
                exact ih after hafter_le
              · rw [hrepl1, hnc_eq]
                have hshape : ('(' :: (nc ++ [')'])) ++ replPass f after =
                    '(' :: (nc ++ ')' :: replPass f after) := by
                  simp
                rw [hshape, replPass]
                simp only [if_true, reduceIte]
                rw [splitParen_append nc (replPass f after) hnc_np]
                simp only [hnc_mc, if_true, reduceIte]
                rw [ih after hafter_le, hnc_rw]
                simp
            · have hmcf : matchCond content = false := by
                simpa using hmc
              have hrepl1 : replPass f ('(' :: rest) =
                  '(' :: replPass f rest := by
                rw [replPass]
                simp [hsp, hmcf]
              have hrest : replPass f rest =
                  content ++ ')' :: replPass f after := by
                rw [hr_eq]
                exact replPass_fail_region f content after hr_np hmcf
              rw [hrepl1, hrest, replPass]
              simp only [if_true, reduceIte]
              rw [splitParen_append content (replPass f after) hr_np]
              simp only [hmcf]
              rw [replPass_fail_region f content _ hr_np hmcf,
                ih after hafter_le]
              simp
        · have hrepl1 : replPass f (c :: rest) = c :: replPass f rest := by
            rw [replPass]
            simp [hc]
          rw [hrepl1, replPass]
          simp [hc, ih rest hrest_le, hrepl1]
  exact fun l => main l.length l le_rfl

theorem killLinksL_idem (l : List Char) :
    killLinksL (killLinksL l) = killLinksL l :=
  replPass_idem_of _ (fun _ _ _ => Or.inl rfl) l

theorem mkBase_http (v : String) :
    "http".toList.isPrefixOf (mkBase v) = true := by
  have hsplit : "https://www.postgresql.org/docs/".toList =
      "http".toList ++ "s://www.postgresql.org/docs/".toList := by rfl
  rw [mkBase, hsplit, List.append_assoc]
  exact isPrefixOf_self_append _ _

theorem mkBase_no_close (v : String) (hv : ')' ∉ v.toList) :
    ')' ∉ mkBase v := by
  rw [mkBase]
  intro hmem
  rcases List.mem_append.mp hmem with h1 | h1
  · rcases List.mem_append.mp h1 with h2 | h2
    · exact absurd h2 (by decide)
    · have h3 : ')' ∈ (jsOr v "0").toList :=
        (List.takeWhile_sublist _).subset h2
      rw [jsOr] at h3
      by_cases hve : v = ""
      · rw [if_pos hve] at h3
        exact absurd h3 (by decide)
      · rw [if_neg hve] at h3
        exact hv h3
  · exact absurd h1 (by decide)

theorem updateLinksL_idem (base : List Char) (hnp : ')' ∉ base)
    (hhttp : "http".toList.isPrefixOf base = true) (l : List Char) :
    updateLinksL base (updateLinksL base l) = updateLinksL base l := by
  refine replPass_idem_of (updateRw base) (fun content hcnp hmc => Or.inr ?_) l
  by_cases hp : "http".toList.isPrefixOf content = true
  · exact ⟨content, by rw [updateRw, if_pos hp], hcnp, hmc,
      by rw [updateRw, if_pos hp]⟩
  · have hbne : ∃ b bs, base = b :: bs := by
      cases base with
      | nil => simp [List.isPrefixOf] at hhttp
      | cons b bs => exact ⟨b, bs, rfl⟩
    obtain ⟨b, bs, rfl⟩ := hbne
    refine ⟨(b :: bs) ++ content, by rw [updateRw, if_neg hp], ?_, ?_, ?_⟩
    · intro hh
      rcases List.mem_append.mp hh with h1 | h1
      · exact hnp h1
      · exact hcnp h1
    · have h1 : isSubstr ".html".toList content = true :=
        isSubstr_of_drop_one _ _ (by simpa [matchCond] using hmc)
      simpa [matchCond] using isSubstr_append_left _ bs _ h1
    · have hpre : "http".toList.isPrefixOf ((b :: bs) ++ content) = true :=
        isPrefixOf_append_of _ _ _ hhttp
      rw [updateRw, if_pos hpre]

theorem killLinks_idem (t : String) :
    killLinks (killLinks t) = killLinks t :=
  congrArg List.asString (killLinksL_idem t.toList)

theorem updateLinks_idem (d v : String) (hv : ')' ∉ v.toList) :
    updateLinks (updateLinks d v) v = updateLinks d v :=
  congrArg List.asString
    (updateLinksL_idem (mkBase v) (mkBase_no_close v hv) (mkBase_http v)
      d.toList)

theorem guardKill_idem (x : String) :
    (if (if x = "" then x else killLinks x) = ""
      then (if x = "" then x else killLinks x)
      else killLinks (if x = "" then x else killLinks x)) =
    if x = "" then x else killLinks x := by
  by_cases hx : x = ""
  · simp [hx]
  · simp only [hx, if_false]
    by_cases hk : killLinks x = ""
    · simp [hk]
    · simp [hk, killLinks_idem]

theorem guardUpd_idem (x v : String) (hv : ')' ∉ v.toList) :
    (if (if x = "" then x else updateLinks x v) = ""
      then (if x = "" then x else updateLinks x v)
      else updateLinks (if x = "" then x else updateLinks x v) v) =
    if x = "" then x else updateLinks x v := by
  by_cases hx : x = ""
  · simp [hx]
  · simp only [hx, if_false]
    by_cases hk : updateLinks x v = ""
    · simp [hk]
    · simp [hk, updateLinks_idem x v hv]

theorem jsOr_no_close (v : String) (hv : ')' ∉ v.toList) :
    ')' ∉ (jsOr v "0").toList := by
  rw [jsOr]
  by_cases hve : v = ""
  · rw [if_pos hve]; decide
  · rw [if_neg hve]; exact hv

theorem updBug_idem (it : BugItem) (hv : ')' ∉ it.fixedIn.toList) :
    updBug (updBug it) = updBug it := by
  have hjs := jsOr_no_close it.fixedIn hv
  rcases it with ⟨t, d, f, sig, cs⟩
  simp only [updBug]
  rw [guardKill_idem t, guardUpd_idem d (jsOr f "0") hjs]

theorem updFeature_idem (it : FeatureItem)
    (hv : ')' ∉ it.sinceVersion.toList) :
    updFeature (updFeature it) = updFeature it := by
  have hjs := jsOr_no_close it.sinceVersion hv
  rcases it with ⟨t, d, f, sig, cs⟩
  simp only [updFeature]
  rw [guardKill_idem t, guardUpd_idem d (jsOr f "0") hjs]

theorem updSecurity_idem (it : SecurityItem)
    (hv : ')' ∉ it.fixedIn.toList) :
    updSecurity (updSecurity it) = updSecurity it := by
  have hjs := jsOr_no_close it.fixedIn hv
  rcases it with ⟨cve, t, d, f, cs, mets, sev, imp⟩
  simp only [updSecurity]
  rw [guardKill_idem t, guardUpd_idem d (jsOr f "0") hjs]

/-- C8: the Link Rewriter is idempotent on every summary whose version
fields (`fixedIn`/`sinceVersion`, dotted numeric strings per the data
model) contain no closing parenthesis: a second application changes
nothing, because a rewritten description target starts with the
absolute scheme `http` and is left as matched, and title stripping is
stable under re-application. -/
theorem C8_link_rewrite_idempotent (s : Summary)
    (h : (∀ it ∈ s.bugs, ')' ∉ it.fixedIn.toList) ∧
         (∀ it ∈ s.features, ')' ∉ it.sinceVersion.toList) ∧
         (∀ it ∈ s.performance, ')' ∉ it.sinceVersion.toList) ∧
         (∀ it ∈ s.security, ')' ∉ it.fixedIn.toList)) :
    updateFormattedLinksFun (updateFormattedLinksFun s) =
      updateFormattedLinksFun s := by
  obtain ⟨hb, hf, hp, hs⟩ := h
  have h1 : (s.bugs.map updBug).map updBug = s.bugs.map updBug := by
    rw [List.map_map]
    exact List.map_congr_left fun it hit => updBug_idem it (hb it hit)
  have h2 : (s.features.map updFeature).map updFeature =
      s.features.map updFeature := by
    rw [List.map_map]
    exact List.map_congr_left fun it hit => updFeature_idem it (hf it hit)
  have h3 : (s.performance.map updFeature).map updFeature =
      s.performance.map updFeature := by
    rw [List.map_map]
    exact List.map_congr_left fun it hit => updFeature_idem it (hp it hit)
  have h4 : (s.security.map updSecurity).map updSecurity =
      s.security.map updSecurity := by
    rw [List.map_map]
    exact List.map_congr_left fun it hit => updSecurity_idem it (hs it hit)
  simp only [updateFormattedLinksFun, h1, h2, h3, h4]

theorem C8_link_rewrite_idempotent_witness :
    ((∀ it ∈ ([⟨"[t](a.html)", "see (func.html) and (https://a.b/x.html)",
          "16.1", false, ["Ann"]⟩] : List BugItem), ')' ∉ it.fixedIn.toList) ∧
      (∀ it ∈ ([] : List FeatureItem), ')' ∉ it.sinceVersion.toList) ∧
      (∀ it ∈ ([] : List FeatureItem), ')' ∉ it.sinceVersion.toList) ∧
      (∀ it ∈ ([] : List SecurityItem), ')' ∉ it.fixedIn.toList)) ∧
    updateFormattedLinksFun (updateFormattedLinksFun
        ⟨[("16.1", "2023-11-09")],
          [⟨"[t](a.html)", "see (func.html) and (https://a.b/x.html)",
            "16.1", false, ["Ann"]⟩], [], [], []⟩) =
      updateFormattedLinksFun
        ⟨[("16.1", "2023-11-09")],
          [⟨"[t](a.html)", "see (func.html) and (https://a.b/x.html)",
            "16.1", false, ["Ann"]⟩], [], [], []⟩ :=
  ⟨⟨by decide, by decide, by decide, by decide⟩,
    C8_link_rewrite_idempotent _
      ⟨by decide, by decide, by decide, by decide⟩⟩
